import Mathlib

/-
Verification of the pseudo-label refinement engine of the SHOT
open-set domain-adaptation trainer (src/shot/train_target_oda.py,
function obtain_label, lines 51-106).

Modelling conventions:
* Floating-point tensors are modelled over an arbitrary linear ordered
  field.  Proofs are stated polymorphically; concrete evaluations
  instantiate the field with the rationals, and the entropy scorer and
  softmax, which need log and exp, are stated over the reals.
* The forward pass (lines 32-49) only collects the feature matrix, the
  classifier outputs and the ground-truth labels; the collected tensors
  are inputs of the embedding.  Matrices are total functions from
  natural-number indices; only indices below the stated bounds are ever
  read.
* sklearn KMeans (lines 61-63) is an external library.  Its output, the
  per-sample cluster assignment (cluster 1 encoded as true) together
  with the two cluster centers, is an input of the embedding; the
  contract of a converged run with both clusters non-empty, namely that
  every sample sits in the cluster of its nearest center and that each
  center is the mean of its cluster, is the predicate OLInput.kmeansInv.
  The fitted labels (kmeans.labels_, line 69) and the re-predicted ones
  (kmeans.predict, line 63) agree on the training data, so a single
  assignment models both.
* numpy mean of an empty slice (line 67, ent[idx].mean() with idx empty)
  is NaN, and any comparison against NaN is False; the definition of
  OLInput.iidx therefore guards the comparison with non-emptiness of
  cluster 1, which reproduces exactly the False branch.
* scipy cdist(X, C, metric) (lines 86, 94) is the matrix of pairwise
  distances dist(X i) (C j); the metric is a parameter of the
  embedding.  Only the row-wise argmin of this matrix is consumed.
  sqDist is the squared euclidean distance; the euclidean metric is its
  square root, a strictly monotone image, so it has the same row-wise
  argmin and the same crash behaviour.  The cosine branch (lines 54-56)
  only rescales the feature rows upstream of the pipeline and changes
  the metric, both of which are absorbed by the fea and dist parameters.
* numpy argmin on an empty axis (dd.argmin(axis=1) with labelset
  empty, line 87 or 95) raises ValueError: the check is on the length
  of the reduced axis alone, so it fires even when the KNOWN subset
  contributes zero rows and dd is 0-by-0.  The assignment step is
  therefore Option-valued and returns none exactly when labelset is
  empty.  numpy argmin breaks ties towards the first
  index, as does argminList below; torch.max (line 52) also reports the
  first maximal index, as does argmaxList.
-/

/-- First index attaining the minimum of f over the list, as numpy
argmin over an axis: the accumulator is replaced only by a strictly
smaller value, so ties keep the earliest index.  Empty input gives none,
the situation in which numpy raises ValueError. -/
def argminList {A : Type} [LinearOrder A] (f : ℕ → A) : List ℕ → Option ℕ
  | [] => none
  | x :: xs => some (xs.foldl (fun b c => if f c < f b then c else b) x)

/-- First index attaining the maximum of f over the list, as
torch.max over dim 1 (line 52): ties keep the earliest index. -/
def argmaxList {A : Type} [LinearOrder A] (f : ℕ → A) : List ℕ → Option ℕ
  | [] => none
  | x :: xs => some (xs.foldl (fun b c => if f b < f c then c else b) x)

/-- Mean of f over a finite index set, as numpy ndarray.mean. -/
def meanOver {A : Type} [LinearOrderedField A] (s : Finset ℕ) (f : ℕ → A) : A :=
  (∑ i ∈ s, f i) / (s.card : A)

/-- Squared euclidean distance on the first d coordinates. -/
def sqDist {A : Type} [LinearOrderedField A] (d : ℕ) (x y : ℕ → A) : A :=
  ∑ j ∈ Finset.range d, (x j - y j) ^ 2

/-- Input snapshot of one obtain_label pass, as available at line 51:
the collected tensors, the configuration, and the output of the
external KMeans run (assign true means cluster 1; c0, c1 are the two
cluster centers).  ent is the per-sample normalized entropy score of
line 58; the real-valued pipeline obtainLabelFull instantiates it with
entScore of the softmax outputs. -/
structure OLInput (A : Type) where
  n : ℕ
  K : ℕ
  d : ℕ
  fea : ℕ → ℕ → A
  out : ℕ → ℕ → A
  lab : ℕ → A
  ent : ℕ → A
  dist : (ℕ → A) → (ℕ → A) → A
  thr : A
  assign : ℕ → Bool
  c0 : A
  c1 : A

/-- Line 52: predict = torch.max(all_output, 1), the per-row argmax of
the softmax outputs. -/
def OLInput.predict {A : Type} [LinearOrderedField A] (I : OLInput A) (i : ℕ) : ℕ :=
  (argmaxList (fun k => I.out i k) (List.range I.K)).getD 0

/-- Line 65: idx = np.where(labels == 1), the samples of cluster 1. -/
def OLInput.idxF {A : Type} [LinearOrderedField A] (I : OLInput A) : Finset ℕ :=
  (Finset.range I.n).filter (fun i => I.assign i = true)

/-- The samples of cluster 0. -/
def OLInput.cl0F {A : Type} [LinearOrderedField A] (I : OLInput A) : Finset ℕ :=
  (Finset.range I.n).filter (fun i => I.assign i = false)

/-- Lines 66-68: iidx is 1 exactly when the mean entropy of cluster 1
exceeds the mean entropy of the whole pass.  The non-emptiness guard
reproduces numpy: the mean of an empty slice is NaN and NaN > x is
False, so an empty cluster 1 leaves iidx = 0. -/
def OLInput.iidx {A : Type} [LinearOrderedField A] (I : OLInput A) : Bool :=
  decide (I.idxF.Nonempty ∧ meanOver I.idxF I.ent > meanOver (Finset.range I.n) I.ent)

/-- Line 69: a sample is in the KNOWN subset when its cluster label
differs from iidx. -/
def OLInput.knownB {A : Type} [LinearOrderedField A] (I : OLInput A) (i : ℕ) : Bool :=
  I.assign i != I.iidx

/-- Line 69: known_idx = np.where(kmeans.labels_ != iidx). -/
def OLInput.knownF {A : Type} [LinearOrderedField A] (I : OLInput A) : Finset ℕ :=
  (Finset.range I.n).filter (fun i => I.knownB i = true)

/-- Line 75: ENT_THRESHOLD = kmeans.cluster_centers_.mean(), the
arithmetic mean of the two centers. -/
def OLInput.threshold {A : Type} [LinearOrderedField A] (I : OLInput A) : A :=
  (I.c0 + I.c1) / 2

/-- Lines 80-81 and 92-93: initc = aff.T.dot(all_fea) normalized by
(1e-8 + aff.sum(axis=0)), restricted to the KNOWN subset, for a given
weight matrix aff. -/
def OLInput.initcOf {A : Type} [LinearOrderedField A]
    (I : OLInput A) (w : ℕ → ℕ → A) (k j : ℕ) : A :=
  (∑ i ∈ I.knownF, w i k * I.fea i j) / (1 / 100000000 + ∑ i ∈ I.knownF, w i k)

/-- Round-0 prototypes (lines 80-81): soft weights are the softmax
outputs themselves. -/
def OLInput.initcSoft {A : Type} [LinearOrderedField A] (I : OLInput A) (k j : ℕ) : A :=
  I.initcOf I.out k j

/-- Line 91: aff = np.eye(K)[pred_label], the one-hot indicator of a
hard label vector. -/
def OLInput.hardW {A : Type} [LinearOrderedField A]
    (_I : OLInput A) (p : ℕ → ℕ) (i k : ℕ) : A :=
  if p i = k then 1 else 0

/-- Line 82: cls_count = np.eye(K)[predict].sum(axis=0), the per-class
hard count of the classifier argmax over the KNOWN subset. -/
def OLInput.clsCount {A : Type} [LinearOrderedField A] (I : OLInput A) (k : ℕ) : A :=
  ∑ i ∈ I.knownF, I.hardW I.predict i k

/-- Lines 83-84: labelset = np.where(cls_count > threshold), in
ascending index order.  It is computed once, from the classifier argmax
counts, and never recomputed inside the refinement loop. -/
def OLInput.labelsetL {A : Type} [LinearOrderedField A] (I : OLInput A) : List ℕ :=
  (List.range I.K).filter (fun k => decide (I.thr < I.clsCount k))

/-- Lines 86-88 and 94-96: dd = cdist(all_fea, initc[labelset]) and
pred_label = labelset[dd.argmin(axis=1)], for given prototypes.  When
labelset is empty the reduced axis of dd has length zero and numpy
argmin raises ValueError regardless of the number of rows; that is the
none branch. -/
def OLInput.assignWith {A : Type} [LinearOrderedField A]
    (I : OLInput A) (c : ℕ → ℕ → A) : Option (ℕ → ℕ) :=
  if I.labelsetL = [] then none
  else some (fun i => (argminList (fun k => I.dist (I.fea i) (c k)) I.labelsetL).getD 0)

/-- Lines 86-88: the initial assignment from the soft prototypes. -/
def OLInput.pred0 {A : Type} [LinearOrderedField A] (I : OLInput A) : Option (ℕ → ℕ) :=
  I.assignWith (fun k j => I.initcSoft k j)

/-- Lines 91-96: one refinement round, rebuilding the prototypes from
the one-hot indicator of the previous hard labels and reassigning.  The
labelset of line 83 is reused unchanged. -/
def OLInput.refine {A : Type} [LinearOrderedField A]
    (I : OLInput A) (p : ℕ → ℕ) : Option (ℕ → ℕ) :=
  I.assignWith (fun k j => I.initcOf (I.hardW p) k j)

/-- Iterated refinement rounds, for relating the loop of line 90 to a
round-count budget. -/
def OLInput.refineIter {A : Type} [LinearOrderedField A]
    (I : OLInput A) : ℕ → (ℕ → ℕ) → Option (ℕ → ℕ)
  | 0, p => some p
  | r + 1, p => (I.refine p).bind (fun q => I.refineIter r q)

/-- Lines 98-99: guess_label = class_num * np.ones(n) overwritten with
pred_label on the KNOWN subset. -/
def OLInput.guessOf {A : Type} [LinearOrderedField A]
    (I : OLInput A) (p : ℕ → ℕ) (i : ℕ) : ℕ :=
  if i ∈ I.knownF then p i else I.K

/-- Line 106: the returned pair of the pseudo-label vector and
ENT_THRESHOLD; the vector exists only when no assignment step raised. -/
def OLInput.result {A : Type} [LinearOrderedField A]
    (I : OLInput A) : Option ((ℕ → ℕ) × A) :=
  (I.pred0.bind (fun p => I.refine p)).map (fun p => (I.guessOf p, I.threshold))

/-- Line 53: before_acc, the accuracy of the raw argmax prediction
against the ground-truth labels; it feeds only the log line 102. -/
def OLInput.beforeAcc {A : Type} [LinearOrderedField A] (I : OLInput A) : A :=
  meanOver (Finset.range I.n) (fun i => if (I.predict i : A) = I.lab i then 1 else 0)

/-- Contract of a converged sklearn KMeans run with two clusters on the
one-dimensional entropy signal (lines 61-63): both clusters are
non-empty (sklearn relocates empty clusters), each center is the mean
of its cluster, and every sample lies in the cluster of the nearest
center, ties resolved towards cluster 0 as numpy argmin does. -/
def OLInput.kmeansInv {A : Type} [LinearOrderedField A] (I : OLInput A) : Prop :=
  I.cl0F.Nonempty ∧ I.idxF.Nonempty ∧
    I.c0 = meanOver I.cl0F I.ent ∧ I.c1 = meanOver I.idxF I.ent ∧
    ∀ i ∈ Finset.range I.n,
      I.assign i = decide ((I.ent i - I.c1) ^ 2 < (I.ent i - I.c0) ^ 2)

/-- Line 58: the normalized entropy score of one softmax row,
ent_i = sum_k -(p_ik * log(p_ik + eps)) / log K. -/
noncomputable def entScore (K : ℕ) (eps : ℝ) (p : ℕ → ℝ) : ℝ :=
  (∑ k ∈ Finset.range K, -(p k * Real.log (p k + eps))) / Real.log K

/-- Line 51: torch.nn.Softmax(dim=1) on one row of classifier logits. -/
noncomputable def softmaxRow (K : ℕ) (z : ℕ → ℝ) (k : ℕ) : ℝ :=
  Real.exp (z k) / ∑ j ∈ Finset.range K, Real.exp (z j)

/-- A well-formed ClassDistribution over K classes: non-negative
entries summing to 1. -/
def ValidDist (K : ℕ) (p : ℕ → ℝ) : Prop :=
  (∀ k, k < K → 0 ≤ p k) ∧ ∑ k ∈ Finset.range K, p k = 1

/-- A one-hot ClassDistribution over K classes. -/
def OneHot (K : ℕ) (p : ℕ → ℝ) : Prop :=
  ∃ k0, k0 < K ∧ p k0 = 1 ∧ ∀ k, k < K → k ≠ k0 → p k = 0

/-- The full real-valued pipeline of obtain_label from line 51 on: the
softmax of line 51 is applied to the collected logits, the entropy of
line 58 is computed from the softmax rows, and the rest is the generic
pipeline.  The ground-truth labels enter only the logged accuracies. -/
noncomputable def obtainLabelFull (n K d : ℕ) (fea logits : ℕ → ℕ → ℝ) (lab : ℕ → ℝ)
    (eps : ℝ) (dst : (ℕ → ℝ) → (ℕ → ℝ) → ℝ) (thr : ℝ)
    (assign : ℕ → Bool) (c0 c1 : ℝ) : Option ((ℕ → ℕ) × ℝ) :=
  OLInput.result
    { n := n, K := K, d := d, fea := fea
      out := fun i k => softmaxRow K (logits i) k
      lab := lab
      ent := fun i => entScore K eps (fun k => softmaxRow K (logits i) k)
      dist := dst, thr := thr, assign := assign, c0 := c0, c1 := c1 }

/-- The synthetic well-separated entropy data of the spec: three low
scores and three high scores. -/
def ent6 : ℕ → ℚ :=
  fun i =>
    if i = 0 then 1 / 20
    else if i = 1 then 2 / 25
    else if i = 2 then 1 / 10
    else if i = 3 then 4 / 5
    else if i = 4 then 17 / 20
    else if i = 5 then 9 / 10
    else 0

/-- A splitter-only input over the six synthetic entropy scores; the
downstream tensor fields are irrelevant to the Open-Set Splitter and
are filled with zeros. -/
def splitIn6 (a : ℕ → Bool) (c0 c1 : ℚ) : OLInput ℚ :=
  { n := 6, K := 2, d := 1, fea := fun _ _ => 0, out := fun _ _ => 0
    lab := fun _ => 0, ent := ent6, dist := sqDist 1, thr := 0
    assign := a, c0 := c0, c1 := c1 }

/-- A minimal healthy pass: one sample, one class, cluster 1 holding
the sample, which the splitter keeps KNOWN. -/
def C1W : OLInput ℚ :=
  { n := 1, K := 1, d := 1, fea := fun _ _ => 0, out := fun _ _ => 1
    lab := fun _ => 0, ent := fun _ => 0, dist := sqDist 1, thr := 0
    assign := fun _ => true, c0 := 0, c1 := 0 }

/-- Four KNOWN samples over two classes.  The classifier argmax counts
are 2 and 2, so with minimum-support threshold 1 the labelset is the
full class set; the round-0 assignment moves samples 0, 1, 2 to class 0
and sample 3 to class 1, leaving class 1 with hard count 1, yet round 1
still assigns sample 3 to class 1. -/
def C3I : OLInput ℚ :=
  { n := 4, K := 2, d := 1
    fea := fun i _ => if i = 0 then 1 else if i = 1 then 1 else if i = 2 then 4 else -4
    out := fun i k =>
      if i ≤ 1 then (if k = 0 then 1 else 0)
      else (if k = 0 then 2 / 5 else 3 / 5)
    lab := fun _ => 0, ent := fun _ => 0, dist := sqDist 1, thr := 1
    assign := fun _ => true, c0 := 0, c1 := 0 }

/-- Two KNOWN samples, both predicted class 0, with minimum-support
threshold 10: the labelset is empty while the KNOWN subset is not, the
situation in which line 87 raises ValueError. -/
def C6I : OLInput ℚ :=
  { n := 2, K := 2, d := 1, fea := fun _ _ => 0
    out := fun _ k => if k = 0 then 1 else 0
    lab := fun _ => 0, ent := fun _ => 0, dist := sqDist 1, thr := 10
    assign := fun _ => true, c0 := 0, c1 := 0 }

/-- One sample whose ClassDistribution row is malformed, with a
negative entry and total mass 2; the engine still runs to completion on
it. -/
def C8I : OLInput ℚ :=
  { n := 1, K := 2, d := 1, fea := fun _ _ => 0
    out := fun _ k => if k = 0 then -1 else 3
    lab := fun _ => 0, ent := fun _ => 0, dist := sqDist 1, thr := 0
    assign := fun _ => true, c0 := 0, c1 := 0 }

/-- The valid one-hot distribution over two classes. -/
def oneHot2 : ℕ → ℝ := fun k => if k = 0 then 1 else 0

/-- The uniform distribution over two classes. -/
noncomputable def unif2 : ℕ → ℝ := fun k => if k < 2 then 1 / 2 else 0

/-- A pass in which the splitter marks every sample UNKNOWN: both
samples sit in cluster 0 and the support threshold is positive, so the
KNOWN subset and the label set are both empty and the pass still
aborts at the empty-axis argmin of line 87. -/
def C6E : OLInput ℚ :=
  { n := 2, K := 2, d := 1, fea := fun _ _ => 0
    out := fun _ k => if k = 0 then 1 else 0
    lab := fun _ => 0, ent := fun _ => 0, dist := sqDist 1, thr := 10
    assign := fun _ => false, c0 := 0, c1 := 0 }

/-- The hard pseudo-labels produced by the round-0 assignment on C3I:
samples 0, 1, 2 go to class 0 and sample 3 to class 1. -/
def p03 : ℕ → ℕ := fun i => if i ≤ 2 then 0 else 1

/-- The gap-split cluster assignment on the six synthetic entropy
scores: the three high scores form cluster 1. -/
def a6 : ℕ → Bool := fun i => decide (3 ≤ i)

/-- The foldl underlying argminList only ever returns the accumulator
or a list element. -/
theorem foldl_min_mem {A : Type} [LinearOrder A] (f : ℕ → A) :
    ∀ (l : List ℕ) (b : ℕ),
      l.foldl (fun b c => if f c < f b then c else b) b ∈ b :: l := by
  intro l
  induction l with
  | nil => intro b; simp
  | cons c t ih =>
      intro b
      simp only [List.foldl_cons]
      rcases List.mem_cons.mp (ih (if f c < f b then c else b)) with h | h
      · rw [h]
        by_cases hc : f c < f b
        · rw [if_pos hc]
          exact List.mem_cons_of_mem b (List.mem_cons_self c t)
        · rw [if_neg hc]
          exact List.mem_cons_self b (c :: t)
      · exact List.mem_cons_of_mem b (List.mem_cons_of_mem c h)

/-- The argmin of a list, when defined, is an element of the list. -/
theorem argminList_mem {A : Type} [LinearOrder A] (f : ℕ → A) (l : List ℕ) (x : ℕ)
    (h : argminList f l = some x) : x ∈ l := by
  cases l with
  | nil => exact absurd h (by simp [argminList])
  | cons a t =>
      have hx : t.foldl (fun b c => if f c < f b then c else b) a = x :=
        Option.some_inj.mp h
      exact hx ▸ foldl_min_mem f t a

/-- The defaulted argmin of a non-empty list is an element of it. -/
theorem argminList_getD_mem {A : Type} [LinearOrder A] (f : ℕ → A) (l : List ℕ)
    (h : l ≠ []) : (argminList f l).getD 0 ∈ l := by
  cases l with
  | nil => exact absurd rfl h
  | cons a t =>
      simp only [argminList, Option.getD_some]
      exact foldl_min_mem f t a

/-- Membership in the minimum-support label set, exactly the numpy
condition of lines 82-84: a class index below K whose hard count from
the classifier argmax strictly exceeds the configured threshold. -/
theorem labelset_mem_iff {A : Type} [LinearOrderedField A] (I : OLInput A) (k : ℕ) :
    k ∈ I.labelsetL ↔ k < I.K ∧ I.thr < I.clsCount k := by
  unfold OLInput.labelsetL
  simp [List.mem_filter, List.mem_range]

/-- Any successful assignment step only emits classes of the label
set, on the KNOWN subset. -/
theorem assignWith_mem {A : Type} [LinearOrderedField A] (I : OLInput A)
    (c : ℕ → ℕ → A) (p : ℕ → ℕ) (h : I.assignWith c = some p)
    (i : ℕ) (_hi : i ∈ I.knownF) : p i ∈ I.labelsetL := by
  unfold OLInput.assignWith at h
  by_cases hc : I.labelsetL = []
  · rw [if_pos hc] at h
    exact absurd h (by simp)
  · rw [if_neg hc] at h
    have hp := Option.some_inj.mp h
    have hv : p i = (argminList (fun k => I.dist (I.fea i) (c k)) I.labelsetL).getD 0 := by
      rw [← hp]
    rw [hv]
    exact argminList_getD_mem _ _ hc

/-- A successful assignment step exists exactly when the label set is
non-empty. -/
theorem assignWith_isSome {A : Type} [LinearOrderedField A] (I : OLInput A)
    (c : ℕ → ℕ → A) (h : I.labelsetL ≠ []) :
    (I.assignWith c).isSome = true := by
  unfold OLInput.assignWith
  rw [if_neg h]
  rfl

/-- Core mean comparison: a part's mean exceeds the total mean iff it
exceeds the complementary part's mean (all parts non-empty). -/
theorem div_mean_iff {A : Type} [LinearOrderedField A] (a c m k : A)
    (hm : 0 < m) (hk : 0 < k) : ((a + c) / (m + k) < a / m ↔ c / k < a / m) := by
  rw [div_lt_div_iff₀ (by linarith) hm, div_lt_div_iff₀ hk hm]
  constructor <;> intro h <;> nlinarith

/-- Splitting the mean over range n along a boolean tag: the tagged
part's mean exceeds the global mean iff it exceeds the untagged part's
mean, whenever both parts are non-empty. -/
theorem meanOver_split_iff {A : Type} [LinearOrderedField A] (n : ℕ) (b : ℕ → Bool)
    (f : ℕ → A)
    (h0 : ((Finset.range n).filter (fun i => b i = false)).Nonempty)
    (h1 : ((Finset.range n).filter (fun i => b i = true)).Nonempty) :
    (meanOver (Finset.range n) f <
        meanOver ((Finset.range n).filter (fun i => b i = true)) f ↔
      meanOver ((Finset.range n).filter (fun i => b i = false)) f <
        meanOver ((Finset.range n).filter (fun i => b i = true)) f) := by
  have hps : (Finset.range n).filter (fun i => b i = false) =
      (Finset.range n).filter (fun i => ¬ b i = true) :=
    Finset.filter_congr (by intro x _; simp)
  have hsum : ∑ i ∈ (Finset.range n).filter (fun i => b i = true), f i +
      ∑ i ∈ (Finset.range n).filter (fun i => b i = false), f i =
      ∑ i ∈ Finset.range n, f i := by
    rw [hps]
    exact Finset.sum_filter_add_sum_filter_not (Finset.range n) (fun i => b i = true) f
  have hcard : ((Finset.range n).filter (fun i => b i = true)).card +
      ((Finset.range n).filter (fun i => b i = false)).card = n := by
    rw [hps]
    have := @Finset.filter_card_add_filter_neg_card_eq_card ℕ (Finset.range n)
      (fun i => b i = true) (fun i => inferInstance) (fun i => inferInstance)
    rw [Finset.card_range] at this
    exact this
  have hm : (0 : A) < (((Finset.range n).filter (fun i => b i = true)).card : A) := by
    exact_mod_cast h1.card_pos
  have hk : (0 : A) < (((Finset.range n).filter (fun i => b i = false)).card : A) := by
    exact_mod_cast h0.card_pos
  have hcast : (n : A) = (((Finset.range n).filter (fun i => b i = true)).card : A) +
      (((Finset.range n).filter (fun i => b i = false)).card : A) := by
    exact_mod_cast hcard.symm
  unfold meanOver
  rw [← hsum, Finset.card_range, hcast]
  exact div_mean_iff _ _ _ _ hm hk

/-- Membership in the KNOWN subset. -/
theorem mem_knownF {A : Type} [LinearOrderedField A] (I : OLInput A) (i : ℕ) :
    i ∈ I.knownF ↔ i < I.n ∧ I.knownB i = true := by
  unfold OLInput.knownF
  simp [Finset.mem_filter, Finset.mem_range]

/-- Unfolding I.pred0 to the generic assignment step. -/
theorem pred0_eq {A : Type} [LinearOrderedField A] (I : OLInput A) :
    I.pred0 = I.assignWith (fun k j => I.initcSoft k j) := rfl

/-- Unfolding I.refine to the generic assignment step. -/
theorem refine_eq {A : Type} [LinearOrderedField A] (I : OLInput A) (p : ℕ → ℕ) :
    I.refine p = I.assignWith (fun k j => I.initcOf (I.hardW p) k j) := rfl

/-- Claim C3, amended.  The minimum-support label set is computed once,
before the first assignment, from the hard-assignment counts of the
classifier argmax prediction over the KNOWN subset: it contains exactly
the classes below K whose count strictly exceeds the configured
threshold.  That same label set is reused unchanged in every refinement
round (the third conjunct holds for every previous prediction q, not
just the round-0 output), surviving prototypes are indexed by it alone,
and on the KNOWN subset every assignment of every round lands inside
it. -/
theorem c3_labelset_fixed {A : Type} [LinearOrderedField A] (I : OLInput A) :
    (∀ k, k ∈ I.labelsetL ↔ k < I.K ∧ I.thr < I.clsCount k) ∧
    (∀ p, I.pred0 = some p → ∀ i ∈ I.knownF, p i ∈ I.labelsetL) ∧
    (∀ q p, I.refine q = some p → ∀ i ∈ I.knownF, p i ∈ I.labelsetL) := by
  refine ⟨labelset_mem_iff I, ?_, ?_⟩
  · intro p hp i hi
    rw [pred0_eq] at hp
    exact assignWith_mem I _ p hp i hi
  · intro q p hp i hi
    rw [refine_eq] at hp
    exact assignWith_mem I _ p hp i hi

/-- Claim C1.  When a pass returns, the pseudo-label vector gives every
UNKNOWN-cluster sample the sentinel value K, gives every KNOWN-cluster
sample the refinement loop's final nearest-prototype assignment, which
lies in the label set, and therefore every entry is a class index below
K or the sentinel K itself. -/
theorem c1_engine_output {A : Type} [LinearOrderedField A] (I : OLInput A)
    (p1 g : ℕ → ℕ) (t : A) (hp : I.pred0.bind (fun p => I.refine p) = some p1)
    (h : I.result = some (g, t)) (i : ℕ) (hi : i < I.n) :
    (I.knownB i = false → g i = I.K) ∧
    (I.knownB i = true → g i = p1 i ∧ p1 i ∈ I.labelsetL) ∧ g i ≤ I.K := by
  have hres : I.result = some (I.guessOf p1, I.threshold) := by
    unfold OLInput.result
    rw [hp]
    rfl
  rw [hres] at h
  have hpair := Option.some_inj.mp h
  have hg : I.guessOf p1 = g := congrArg Prod.fst hpair
  have hmem : I.knownB i = true → p1 i ∈ I.labelsetL := by
    intro hkb
    have hiF : i ∈ I.knownF := (mem_knownF I i).mpr ⟨hi, hkb⟩
    obtain ⟨p0, _, hr⟩ := Option.bind_eq_some.mp hp
    rw [refine_eq] at hr
    exact assignWith_mem I _ p1 hr i hiF
  refine ⟨?_, ?_, ?_⟩
  · intro hkb
    rw [← hg]
    unfold OLInput.guessOf
    rw [if_neg]
    intro hiF
    have h2 := ((mem_knownF I i).mp hiF).2
    rw [hkb] at h2
    exact Bool.false_ne_true h2
  · intro hkb
    have hiF : i ∈ I.knownF := (mem_knownF I i).mpr ⟨hi, hkb⟩
    refine ⟨?_, hmem hkb⟩
    rw [← hg]
    unfold OLInput.guessOf
    rw [if_pos hiF]
  · by_cases hkb : I.knownB i = true
    · have hiF : i ∈ I.knownF := (mem_knownF I i).mpr ⟨hi, hkb⟩
      have hlt : p1 i < I.K := ((labelset_mem_iff I (p1 i)).mp (hmem hkb)).1
      rw [← hg]
      unfold OLInput.guessOf
      rw [if_pos hiF]
      exact le_of_lt hlt
    · rw [← hg]
      unfold OLInput.guessOf
      rw [if_neg]
      intro hiF
      exact hkb ((mem_knownF I i).mp hiF).2

/-- Claim C9.  The refinement portion of the pass is exactly one
application of the prototype-rebuild/reassign round after the initial
soft-prototype assignment (the loop of line 90 is range(1), a fixed
budget with no convergence check), and the pass runs to completion,
returning a value, whenever the minimum-support label set is non-empty
(an empty label set instead aborts at the empty-axis argmin of
line 87). -/
theorem c9_fixed_rounds {A : Type} [LinearOrderedField A] (I : OLInput A) :
    I.result = (I.pred0.bind (fun p => I.refineIter 1 p)).map
      (fun p => (I.guessOf p, I.threshold)) ∧
    (I.labelsetL ≠ [] → I.result.isSome = true) := by
  constructor
  · have h1 : ∀ p, I.refineIter 1 p = I.refine p := by
      intro p
      show (I.refine p).bind (fun q => I.refineIter 0 q) = I.refine p
      cases I.refine p <;> rfl
    simp only [h1]
    rfl
  · intro h
    have h0 := assignWith_isSome I (fun k j => I.initcSoft k j) h
    obtain ⟨p, hp⟩ := Option.isSome_iff_exists.mp h0
    have hp2 : I.pred0 = some p := hp
    have h1 := assignWith_isSome I (fun k j => I.initcOf (I.hardW p) k j) h
    obtain ⟨q, hq⟩ := Option.isSome_iff_exists.mp h1
    have hq2 : I.refine p = some q := hq
    unfold OLInput.result
    rw [hp2]
    simp only [Option.some_bind]
    rw [hq2]
    rfl

/-- Claim C7.  The returned pair of pseudo-label vector and threshold
is a pure function of the features, classifier outputs, configuration
and clustering output: replacing the ground-truth labels changes
nothing, in the generic pipeline and in the full real-valued pipeline
alike, because the labels feed only the logged accuracies.  Determinism
under identical inputs is immediate since the embedding is a function
of its input snapshot. -/
theorem c7_label_independence :
    (∀ {A : Type} [LinearOrderedField A] (I : OLInput A) (l : ℕ → A),
      OLInput.result { I with lab := l } = I.result) ∧
    (∀ (n K d : ℕ) (fea logits : ℕ → ℕ → ℝ) (lab lab2 : ℕ → ℝ) (eps : ℝ)
      (dst : (ℕ → ℝ) → (ℕ → ℝ) → ℝ) (thr : ℝ) (assign : ℕ → Bool) (c0 c1 : ℝ),
      obtainLabelFull n K d fea logits lab eps dst thr assign c0 c1 =
        obtainLabelFull n K d fea logits lab2 eps dst thr assign c0 c1) := by
  constructor
  · intro A _inst I l
    rfl
  · intro n K d fea logits lab lab2 eps dst thr assign c0 c1
    rfl

/-- Claim C6, amended.  An empty label set is never recoverable: the
pass aborts with the numpy ValueError of line 87 (modelled as none),
with no signalled condition and no fallback to the unrefined
classifier prediction.  In particular, when the KNOWN subset is empty
(for instance because the splitter marks every sample UNKNOWN) and the
support threshold is non-negative, the label set is empty and the pass
crashes rather than returning the sentinel vector. -/
theorem c6_degraded_pass {A : Type} [LinearOrderedField A] (I : OLInput A) :
    (I.labelsetL = [] → I.result = none) ∧
    (I.knownF = ∅ → 0 ≤ I.thr → I.labelsetL = [] ∧ I.result = none) := by
  have hcrash : I.labelsetL = [] → I.result = none := by
    intro hlab
    have hp : I.pred0 = none := by
      rw [pred0_eq]
      unfold OLInput.assignWith
      rw [if_pos hlab]
    unfold OLInput.result
    rw [hp]
    rfl
  refine ⟨hcrash, ?_⟩
  intro hK hthr
  have hlab : I.labelsetL = [] := by
    unfold OLInput.labelsetL
    apply List.filter_eq_nil_iff.mpr
    intro k _
    simp only [decide_eq_true_eq]
    have hc : I.clsCount k = 0 := by
      unfold OLInput.clsCount
      rw [hK]
      exact Finset.sum_empty
    rw [hc]
    exact not_lt.mpr hthr
  exact ⟨hlab, hcrash hlab⟩

/-- Claim C4.  On the KNOWN subset, the round-0 prototype of class k is
the softmax-probability-weighted sum of feature vectors divided by the
stability constant plus the total soft weight of k; in the refinement
round the weights are the one-hot indicator of the previous hard
labels, so the prototype is the sum of the feature vectors currently
labelled k divided by the stability constant plus their number, the
epsilon-regularized class mean; and, for non-negative weights, both
denominators are strictly positive, the structural guard against
division by zero. -/
theorem c4_prototype_formulas {A : Type} [LinearOrderedField A] (I : OLInput A)
    (hnn : ∀ i k, 0 ≤ I.out i k) :
    (∀ k j, I.initcSoft k j =
      (∑ i ∈ I.knownF, I.out i k * I.fea i j) /
        (1 / 100000000 + ∑ i ∈ I.knownF, I.out i k)) ∧
    (∀ p k j, I.initcOf (I.hardW p) k j =
      (∑ i ∈ I.knownF.filter (fun i => p i = k), I.fea i j) /
        (1 / 100000000 + ((I.knownF.filter (fun i => p i = k)).card : A))) ∧
    (∀ k, (0 : A) < 1 / 100000000 + ∑ i ∈ I.knownF, I.out i k) ∧
    (∀ p k, (0 : A) < 1 / 100000000 + ∑ i ∈ I.knownF, I.hardW p i k) := by
  have hhard : ∀ (p : ℕ → ℕ) (k : ℕ),
      ∑ i ∈ I.knownF, I.hardW p i k = ((I.knownF.filter (fun i => p i = k)).card : A) := by
    intro p k
    show (∑ i ∈ I.knownF, if p i = k then (1 : A) else 0) = _
    exact Finset.sum_boole (fun i => p i = k) I.knownF
  refine ⟨fun k j => rfl, ?_, ?_, ?_⟩
  · intro p k j
    unfold OLInput.initcOf
    rw [hhard p k]
    congr 1
    rw [Finset.sum_filter]
    apply Finset.sum_congr rfl
    intro i _
    unfold OLInput.hardW
    by_cases hpk : p i = k
    · rw [if_pos hpk, if_pos hpk, one_mul]
    · rw [if_neg hpk, if_neg hpk, zero_mul]
  · intro k
    apply add_pos_of_pos_of_nonneg (by norm_num)
    exact Finset.sum_nonneg (fun i _ => hnn i k)
  · intro p k
    apply add_pos_of_pos_of_nonneg (by norm_num)
    apply Finset.sum_nonneg
    intro i _
    unfold OLInput.hardW
    by_cases hpk : p i = k
    · rw [if_pos hpk]; exact zero_le_one
    · rw [if_neg hpk]

/-- Unfolding I.idxF. -/
theorem idxF_eq {A : Type} [LinearOrderedField A] (I : OLInput A) :
    I.idxF = (Finset.range I.n).filter (fun i => I.assign i = true) := rfl

/-- Unfolding I.cl0F. -/
theorem cl0F_eq {A : Type} [LinearOrderedField A] (I : OLInput A) :
    I.cl0F = (Finset.range I.n).filter (fun i => I.assign i = false) := rfl

/-- Claim C10.  The splitter tags as UNKNOWN the cluster selected by
comparing the mean entropy of k-means cluster 1 against the mean of
the whole pass, not against cluster 0's mean (first conjunct, the
literal line 67 condition).  When both clusters are non-empty this is
equivalent to comparing the two cluster means (second conjunct).  When
cluster 1 is empty the numpy comparison is False, iidx stays 0, the
KNOWN subset becomes empty and every sample receives the sentinel
(third conjunct). -/
theorem c10_unknown_selection {A : Type} [LinearOrderedField A] (I : OLInput A) :
    (I.iidx = true ↔ I.idxF.Nonempty ∧
      meanOver I.idxF I.ent > meanOver (Finset.range I.n) I.ent) ∧
    (I.cl0F.Nonempty → I.idxF.Nonempty →
      (I.iidx = true ↔ meanOver I.idxF I.ent > meanOver I.cl0F I.ent)) ∧
    (I.idxF = ∅ → I.knownF = ∅ ∧ ∀ p i, I.guessOf p i = I.K) := by
  have hdef : I.iidx = true ↔ I.idxF.Nonempty ∧
      meanOver I.idxF I.ent > meanOver (Finset.range I.n) I.ent := by
    simp [OLInput.iidx]
  refine ⟨hdef, ?_, ?_⟩
  · intro h0 h1
    rw [hdef]
    constructor
    · intro h
      rw [idxF_eq, cl0F_eq]
      rw [idxF_eq] at h1
      rw [cl0F_eq] at h0
      exact (meanOver_split_iff I.n I.assign I.ent h0 h1).mp h.2
    · intro h
      refine ⟨h1, ?_⟩
      rw [idxF_eq, cl0F_eq] at h
      rw [idxF_eq] at h1
      rw [cl0F_eq] at h0
      exact (meanOver_split_iff I.n I.assign I.ent h0 h1).mpr h
  · intro he
    have hii : I.iidx = false := by
      unfold OLInput.iidx
      apply decide_eq_false
      rintro ⟨hne, _⟩
      rw [he] at hne
      exact Finset.not_nonempty_empty hne
    have hkn : I.knownF = I.idxF := by
      unfold OLInput.knownF OLInput.idxF OLInput.knownB
      apply Finset.filter_congr
      intro x _
      rw [hii, Bool.bne_false]
    have hke : I.knownF = ∅ := by rw [hkn, he]
    refine ⟨hke, ?_⟩
    intro p i
    unfold OLInput.guessOf
    rw [hke]
    simp

theorem mem_idxF {A : Type} [LinearOrderedField A] (I : OLInput A) (i : ℕ) :
    i ∈ I.idxF ↔ i < I.n ∧ I.assign i = true := by
  unfold OLInput.idxF
  simp

theorem mem_cl0F {A : Type} [LinearOrderedField A] (I : OLInput A) (i : ℕ) :
    i ∈ I.cl0F ↔ i < I.n ∧ I.assign i = false := by
  unfold OLInput.cl0F
  simp

theorem sqdiff_lt_iff {A : Type} [LinearOrderedField A] (e c0 c1 : A) :
    ((e - c1) ^ 2 < (e - c0) ^ 2) ↔ (c0 - c1) * (2 * e - (c0 + c1)) < 0 := by
  constructor <;> intro h <;> nlinarith

set_option maxHeartbeats 2000000 in
/-- Claim C2.  Under the KMeans contract (a converged run with both
clusters non-empty), the splitter tags as UNKNOWN exactly the cluster
whose center, equal to its mean entropy, is the larger one, and the
returned ConfidenceThreshold is the arithmetic mean of the two cluster
centers; moreover, on the spec's well-separated synthetic entropy
scores, every contract-satisfying clustering makes the UNKNOWN cluster
exactly the high-entropy group and puts the threshold strictly between
the two groups' value ranges. -/
theorem c2_open_set_splitter :
    (∀ {A : Type} [LinearOrderedField A] (I : OLInput A), I.kmeansInv →
      ((I.iidx = true ↔ I.c0 < I.c1) ∧ I.threshold = (I.c0 + I.c1) / 2)) ∧
    (∀ (a : ℕ → Bool) (c0 c1 : ℚ), (splitIn6 a c0 c1).kmeansInv →
      ((Finset.range 6).filter (fun i => (splitIn6 a c0 c1).knownB i = false) = {3, 4, 5} ∧
        1 / 10 < (splitIn6 a c0 c1).threshold ∧ (splitIn6 a c0 c1).threshold < 4 / 5)) := by
  constructor
  · intro A _inst I hinv
    obtain ⟨h0ne, h1ne, hc0, hc1, -⟩ := hinv
    refine ⟨?_, rfl⟩
    have hdef : I.iidx = true ↔ I.idxF.Nonempty ∧
        meanOver I.idxF I.ent > meanOver (Finset.range I.n) I.ent := by
      simp [OLInput.iidx]
    rw [hdef]
    rw [idxF_eq] at h1ne
    rw [cl0F_eq] at h0ne
    constructor
    · rintro ⟨-, h⟩
      rw [hc0, hc1, idxF_eq, cl0F_eq]
      rw [idxF_eq] at h
      exact (meanOver_split_iff I.n I.assign I.ent h0ne h1ne).mp h
    · intro h
      rw [hc0, hc1, idxF_eq, cl0F_eq] at h
      refine ⟨by rw [idxF_eq]; exact h1ne, ?_⟩
      rw [idxF_eq]
      exact (meanOver_split_iff I.n I.assign I.ent h0ne h1ne).mpr h
  · intro a c0 c1 hinv
    obtain ⟨h0ne, h1ne, hc0, hc1, hptr⟩ := hinv
    have key : ∀ i, i < 6 → (a i = true ↔ (c0 - c1) * (2 * ent6 i - (c0 + c1)) < 0) := by
      intro i hi
      have h2 : a i = decide ((ent6 i - c1) ^ 2 < (ent6 i - c0) ^ 2) :=
        hptr i (Finset.mem_range.mpr hi)
      rw [h2]
      simp only [decide_eq_true_eq]
      exact sqdiff_lt_iff (ent6 i) c0 c1
    have hc1x : c1 = meanOver (splitIn6 a c0 c1).idxF ent6 := hc1
    have hc0x : c0 = meanOver (splitIn6 a c0 c1).cl0F ent6 := hc0
    have hidxf : (splitIn6 a c0 c1).idxF = (Finset.range 6).filter (fun i => a i = true) := rfl
    have hcl0f : (splitIn6 a c0 c1).cl0F = (Finset.range 6).filter (fun i => a i = false) := rfl
    rcases lt_trichotomy c0 c1 with hlt | heq | hgt
    · -- cluster 1 sits above the midpoint
      have key2 : ∀ i, i < 6 → (a i = true ↔ (c0 + c1) / 2 < ent6 i) := by
        intro i hi
        rw [key i hi]
        constructor <;> intro h <;> nlinarith
      rcases le_or_lt (9 / 10 : ℚ) ((c0 + c1) / 2) with hr1 | hr1
      · -- cluster 1 empty: contradiction
        obtain ⟨i, hi⟩ := h1ne
        have hig := (mem_idxF _ i).mp hi
        have hi6 : i < 6 := hig.1
        have hm := (key2 i hi6).mp hig.2
        interval_cases i <;> simp [ent6] at hm <;> linarith
      · rcases le_or_lt (17 / 20 : ℚ) ((c0 + c1) / 2) with hr2 | hr2
        · -- split {0..4} | {5}: inconsistent midpoint
          have hb : ∀ i, i < 6 → (a i = true ↔ decide (5 ≤ i) = true) := by
            intro i hi
            rw [key2 i hi]
            interval_cases i <;> simp [ent6] <;> linarith
          have hbf : ∀ i, i < 6 → (a i = false ↔ decide (i < 5) = true) := by
            intro i hi
            rw [← Bool.not_eq_true, hb i hi]
            simp only [decide_eq_true_eq]
            omega
          rw [hidxf, Finset.filter_congr (fun x hx => hb x (Finset.mem_range.mp hx))] at hc1x
          rw [hcl0f, Finset.filter_congr (fun x hx => hbf x (Finset.mem_range.mp hx))] at hc0x
          simp only [meanOver, Finset.sum_filter, Finset.card_filter, Finset.sum_range_succ,
            Finset.sum_range_zero] at hc1x hc0x
          norm_num [ent6] at hc1x hc0x
          linarith
        · rcases le_or_lt (4 / 5 : ℚ) ((c0 + c1) / 2) with hr3 | hr3
          · -- split {0..3} | {4,5}: inconsistent midpoint
            have hb : ∀ i, i < 6 → (a i = true ↔ decide (4 ≤ i) = true) := by
              intro i hi
              rw [key2 i hi]
              interval_cases i <;> simp [ent6] <;> linarith
            have hbf : ∀ i, i < 6 → (a i = false ↔ decide (i < 4) = true) := by
              intro i hi
              rw [← Bool.not_eq_true, hb i hi]
              simp only [decide_eq_true_eq]
              omega
            rw [hidxf, Finset.filter_congr (fun x hx => hb x (Finset.mem_range.mp hx))] at hc1x
            rw [hcl0f, Finset.filter_congr (fun x hx => hbf x (Finset.mem_range.mp hx))] at hc0x
            simp only [meanOver, Finset.sum_filter, Finset.card_filter, Finset.sum_range_succ,
              Finset.sum_range_zero] at hc1x hc0x
            norm_num [ent6] at hc1x hc0x
            linarith
          · rcases le_or_lt (1 / 10 : ℚ) ((c0 + c1) / 2) with hr4 | hr4
            · -- the gap split {0,1,2} | {3,4,5}: the well-separated conclusion
              have hb : ∀ i, i < 6 → (a i = true ↔ decide (3 ≤ i) = true) := by
                intro i hi
                rw [key2 i hi]
                interval_cases i <;> simp [ent6] <;> linarith
              have hbf : ∀ i, i < 6 → (a i = false ↔ decide (i < 3) = true) := by
                intro i hi
                rw [← Bool.not_eq_true, hb i hi]
                simp only [decide_eq_true_eq]
                omega
              rw [hidxf, Finset.filter_congr (fun x hx => hb x (Finset.mem_range.mp hx))] at hc1x
              rw [hcl0f, Finset.filter_congr (fun x hx => hbf x (Finset.mem_range.mp hx))] at hc0x
              simp only [meanOver, Finset.sum_filter, Finset.card_filter, Finset.sum_range_succ,
                Finset.sum_range_zero] at hc1x hc0x
              norm_num [ent6] at hc1x hc0x
              have hiidx : (splitIn6 a c0 c1).iidx = true := by
                apply decide_eq_true
                refine ⟨h1ne, ?_⟩
                show meanOver (splitIn6 a c0 c1).idxF ent6 > meanOver (Finset.range 6) ent6
                have hm1 : meanOver (splitIn6 a c0 c1).idxF ent6 = 17 / 20 := by
                  rw [hidxf, Finset.filter_congr (fun x hx => hb x (Finset.mem_range.mp hx))]
                  simp only [meanOver, Finset.sum_filter, Finset.card_filter,
                    Finset.sum_range_succ, Finset.sum_range_zero]
                  norm_num [ent6]
                have hma : meanOver (Finset.range 6) ent6 = 139 / 300 := by
                  simp only [meanOver, Finset.sum_range_succ, Finset.sum_range_zero,
                    Finset.card_range]
                  norm_num [ent6]
                rw [hm1, hma]
                norm_num
              have hkb : ∀ i, i < 6 →
                  ((splitIn6 a c0 c1).knownB i = false ↔ decide (3 ≤ i) = true) := by
                intro i hi
                have hkbv : (splitIn6 a c0 c1).knownB i = (a i != true) := by
                  show (a i != (splitIn6 a c0 c1).iidx) = _
                  rw [hiidx]
                rw [hkbv]
                rw [← hb i hi]
                cases a i <;> simp
              refine ⟨?_, ?_, ?_⟩
              · rw [Finset.filter_congr (fun x hx => hkb x (Finset.mem_range.mp hx))]
                decide
              · show (1 : ℚ) / 10 < (c0 + c1) / 2
                linarith
              · show (c0 + c1) / 2 < (4 : ℚ) / 5
                linarith
            · rcases le_or_lt (2 / 25 : ℚ) ((c0 + c1) / 2) with hr5 | hr5
              · -- split {0,1} | {2..5}: inconsistent midpoint
                have hb : ∀ i, i < 6 → (a i = true ↔ decide (2 ≤ i) = true) := by
                  intro i hi
                  rw [key2 i hi]
                  interval_cases i <;> simp [ent6] <;> linarith
                have hbf : ∀ i, i < 6 → (a i = false ↔ decide (i < 2) = true) := by
                  intro i hi
                  rw [← Bool.not_eq_true, hb i hi]
                  simp only [decide_eq_true_eq]
                  omega
                rw [hidxf, Finset.filter_congr (fun x hx => hb x (Finset.mem_range.mp hx))] at hc1x
                rw [hcl0f, Finset.filter_congr (fun x hx => hbf x (Finset.mem_range.mp hx))] at hc0x
                simp only [meanOver, Finset.sum_filter, Finset.card_filter, Finset.sum_range_succ,
                  Finset.sum_range_zero] at hc1x hc0x
                norm_num [ent6] at hc1x hc0x
                linarith
              · rcases le_or_lt (1 / 20 : ℚ) ((c0 + c1) / 2) with hr6 | hr6
                · -- split {0} | {1..5}: inconsistent midpoint
                  have hb : ∀ i, i < 6 → (a i = true ↔ decide (1 ≤ i) = true) := by
                    intro i hi
                    rw [key2 i hi]
                    interval_cases i <;> simp [ent6] <;> linarith
                  have hbf : ∀ i, i < 6 → (a i = false ↔ decide (i < 1) = true) := by
                    intro i hi
                    rw [← Bool.not_eq_true, hb i hi]
                    simp only [decide_eq_true_eq]
                    omega
                  rw [hidxf,
                    Finset.filter_congr (fun x hx => hb x (Finset.mem_range.mp hx))] at hc1x
                  rw [hcl0f,
                    Finset.filter_congr (fun x hx => hbf x (Finset.mem_range.mp hx))] at hc0x
                  simp only [meanOver, Finset.sum_filter, Finset.card_filter,
                    Finset.sum_range_succ, Finset.sum_range_zero] at hc1x hc0x
                  norm_num [ent6] at hc1x hc0x
                  linarith
                · -- cluster 0 empty: contradiction
                  obtain ⟨i, hi⟩ := h0ne
                  have hig := (mem_cl0F _ i).mp hi
                  have hi6 : i < 6 := hig.1
                  have hfa2 : a i = false := hig.2
                  have hfa : ¬ (a i = true) := by
                    rw [hfa2]
                    exact Bool.false_ne_true
                  rw [key2 i hi6] at hfa
                  interval_cases i <;> simp [ent6] at hfa <;> linarith
    · -- equal centers: cluster 1 would be empty
      obtain ⟨i, hi⟩ := h1ne
      have hig := (mem_idxF _ i).mp hi
      have := (key i hig.1).mp hig.2
      rw [heq] at this
      simp at this
    · -- cluster 1 sits below the midpoint
      have key2 : ∀ i, i < 6 → (a i = true ↔ ent6 i < (c0 + c1) / 2) := by
        intro i hi
        rw [key i hi]
        constructor <;> intro h <;> nlinarith
      rcases le_or_lt ((c0 + c1) / 2) (1 / 20 : ℚ) with hr1 | hr1
      · -- cluster 1 empty: contradiction
        obtain ⟨i, hi⟩ := h1ne
        have hig := (mem_idxF _ i).mp hi
        have hi6 : i < 6 := hig.1
        have hm := (key2 i hi6).mp hig.2
        interval_cases i <;> simp [ent6] at hm <;> linarith
      · rcases le_or_lt ((c0 + c1) / 2) (2 / 25 : ℚ) with hr2 | hr2
        · -- split {0} | {1..5}: inconsistent midpoint
          have hb : ∀ i, i < 6 → (a i = true ↔ decide (i < 1) = true) := by
            intro i hi
            rw [key2 i hi]
            interval_cases i <;> simp [ent6] <;> linarith
          have hbf : ∀ i, i < 6 → (a i = false ↔ decide (1 ≤ i) = true) := by
            intro i hi
            rw [← Bool.not_eq_true, hb i hi]
            simp only [decide_eq_true_eq]
            omega
          rw [hidxf, Finset.filter_congr (fun x hx => hb x (Finset.mem_range.mp hx))] at hc1x
          rw [hcl0f, Finset.filter_congr (fun x hx => hbf x (Finset.mem_range.mp hx))] at hc0x
          simp only [meanOver, Finset.sum_filter, Finset.card_filter, Finset.sum_range_succ,
            Finset.sum_range_zero] at hc1x hc0x
          norm_num [ent6] at hc1x hc0x
          linarith
        · rcases le_or_lt ((c0 + c1) / 2) (1 / 10 : ℚ) with hr3 | hr3
          · -- split {0,1} | {2..5}: inconsistent midpoint
            have hb : ∀ i, i < 6 → (a i = true ↔ decide (i < 2) = true) := by
              intro i hi
              rw [key2 i hi]
              interval_cases i <;> simp [ent6] <;> linarith
            have hbf : ∀ i, i < 6 → (a i = false ↔ decide (2 ≤ i) = true) := by
              intro i hi
              rw [← Bool.not_eq_true, hb i hi]
              simp only [decide_eq_true_eq]
              omega
            rw [hidxf, Finset.filter_congr (fun x hx => hb x (Finset.mem_range.mp hx))] at hc1x
            rw [hcl0f, Finset.filter_congr (fun x hx => hbf x (Finset.mem_range.mp hx))] at hc0x
            simp only [meanOver, Finset.sum_filter, Finset.card_filter, Finset.sum_range_succ,
              Finset.sum_range_zero] at hc1x hc0x
            norm_num [ent6] at hc1x hc0x
            linarith
          · rcases le_or_lt ((c0 + c1) / 2) (4 / 5 : ℚ) with hr4 | hr4
            · -- the gap split {3,4,5} | {0,1,2}: the well-separated conclusion
              have hb : ∀ i, i < 6 → (a i = true ↔ decide (i < 3) = true) := by
                intro i hi
                rw [key2 i hi]
                interval_cases i <;> simp [ent6] <;> linarith
              have hbf : ∀ i, i < 6 → (a i = false ↔ decide (3 ≤ i) = true) := by
                intro i hi
                rw [← Bool.not_eq_true, hb i hi]
                simp only [decide_eq_true_eq]
                omega
              rw [hidxf, Finset.filter_congr (fun x hx => hb x (Finset.mem_range.mp hx))] at hc1x
              rw [hcl0f, Finset.filter_congr (fun x hx => hbf x (Finset.mem_range.mp hx))] at hc0x
              simp only [meanOver, Finset.sum_filter, Finset.card_filter, Finset.sum_range_succ,
                Finset.sum_range_zero] at hc1x hc0x
              norm_num [ent6] at hc1x hc0x
              have hiidx : (splitIn6 a c0 c1).iidx = false := by
                apply decide_eq_false
                rintro ⟨-, hgt⟩
                have hm1 : meanOver (splitIn6 a c0 c1).idxF ent6 = 23 / 300 := by
                  rw [hidxf, Finset.filter_congr (fun x hx => hb x (Finset.mem_range.mp hx))]
                  simp only [meanOver, Finset.sum_filter, Finset.card_filter,
                    Finset.sum_range_succ, Finset.sum_range_zero]
                  norm_num [ent6]
                have hma : meanOver (Finset.range 6) ent6 = 139 / 300 := by
                  simp only [meanOver, Finset.sum_range_succ, Finset.sum_range_zero,
                    Finset.card_range]
                  norm_num [ent6]
                have hgt2 : meanOver (splitIn6 a c0 c1).idxF ent6 >
                    meanOver (Finset.range 6) ent6 := hgt
                rw [hm1, hma] at hgt2
                norm_num at hgt2
              have hkb : ∀ i, i < 6 →
                  ((splitIn6 a c0 c1).knownB i = false ↔ decide (3 ≤ i) = true) := by
                intro i hi
                have hkbv : (splitIn6 a c0 c1).knownB i = (a i != false) := by
                  show (a i != (splitIn6 a c0 c1).iidx) = _
                  rw [hiidx]
                rw [hkbv]
                rw [← hbf i hi]
                cases a i <;> simp
              refine ⟨?_, ?_, ?_⟩
              · rw [Finset.filter_congr (fun x hx => hkb x (Finset.mem_range.mp hx))]
                decide
              · show (1 : ℚ) / 10 < (c0 + c1) / 2
                linarith
              · show (c0 + c1) / 2 < (4 : ℚ) / 5
                linarith
            · rcases le_or_lt ((c0 + c1) / 2) (17 / 20 : ℚ) with hr5 | hr5
              · -- split {0..3} | {4,5}: inconsistent midpoint
                have hb : ∀ i, i < 6 → (a i = true ↔ decide (i < 4) = true) := by
                  intro i hi
                  rw [key2 i hi]
                  interval_cases i <;> simp [ent6] <;> linarith
                have hbf : ∀ i, i < 6 → (a i = false ↔ decide (4 ≤ i) = true) := by
                  intro i hi
                  rw [← Bool.not_eq_true, hb i hi]
                  simp only [decide_eq_true_eq]
                  omega
                rw [hidxf, Finset.filter_congr (fun x hx => hb x (Finset.mem_range.mp hx))] at hc1x
                rw [hcl0f, Finset.filter_congr (fun x hx => hbf x (Finset.mem_range.mp hx))] at hc0x
                simp only [meanOver, Finset.sum_filter, Finset.card_filter, Finset.sum_range_succ,
                  Finset.sum_range_zero] at hc1x hc0x
                norm_num [ent6] at hc1x hc0x
                linarith
              · rcases le_or_lt ((c0 + c1) / 2) (9 / 10 : ℚ) with hr6 | hr6
                · -- split {0..4} | {5}: inconsistent midpoint
                  have hb : ∀ i, i < 6 → (a i = true ↔ decide (i < 5) = true) := by
                    intro i hi
                    rw [key2 i hi]
                    interval_cases i <;> simp [ent6] <;> linarith
                  have hbf : ∀ i, i < 6 → (a i = false ↔ decide (5 ≤ i) = true) := by
                    intro i hi
                    rw [← Bool.not_eq_true, hb i hi]
                    simp only [decide_eq_true_eq]
                    omega
                  rw [hidxf,
                    Finset.filter_congr (fun x hx => hb x (Finset.mem_range.mp hx))] at hc1x
                  rw [hcl0f,
                    Finset.filter_congr (fun x hx => hbf x (Finset.mem_range.mp hx))] at hc0x
                  simp only [meanOver, Finset.sum_filter, Finset.card_filter,
                    Finset.sum_range_succ, Finset.sum_range_zero] at hc1x hc0x
                  norm_num [ent6] at hc1x hc0x
                  linarith
                · -- cluster 0 empty: contradiction
                  obtain ⟨i, hi⟩ := h0ne
                  have hig := (mem_cl0F _ i).mp hi
                  have hi6 : i < 6 := hig.1
                  have hfa2 : a i = false := hig.2
                  have hfa : ¬ (a i = true) := by
                    rw [hfa2]
                    exact Bool.false_ne_true
                  rw [key2 i hi6] at hfa
                  interval_cases i <;> simp [ent6] at hfa <;> linarith

/-- One entropy summand can only shrink when the stability constant is
added inside the logarithm. -/
theorem entTerm_le (x eps : ℝ) (hx : 0 ≤ x) (heps : 0 < eps) :
    -(x * Real.log (x + eps)) ≤ -(x * Real.log x) := by
  rcases eq_or_lt_of_le hx with h0 | h0
  · rw [← h0]
    simp
  · apply neg_le_neg
    apply mul_le_mul_of_nonneg_left _ hx
    exact Real.log_le_log h0 (by linarith)

/-- Gibbs bound: the Shannon entropy of a distribution over K classes
is at most log K. -/
theorem sum_negMulLog_le_logK (K : ℕ) (hK : 1 ≤ K) (p : ℕ → ℝ) (hp : ValidDist K p) :
    ∑ k ∈ Finset.range K, -(p k * Real.log (p k)) ≤ Real.log K := by
  have hKpos : (0 : ℝ) < K := by exact_mod_cast Nat.lt_of_lt_of_le Nat.zero_lt_one hK
  have hterm : ∀ k ∈ Finset.range K,
      -(p k * Real.log (p k)) ≤ 1 / K - p k + p k * Real.log K := by
    intro k hk
    rcases eq_or_lt_of_le (hp.1 k (Finset.mem_range.mp hk)) with h0 | h0
    · rw [← h0]
      simp
    · have h1 := Real.log_le_sub_one_of_pos (show (0 : ℝ) < 1 / ((K : ℝ) * p k) by positivity)
      rw [Real.log_div one_ne_zero (by positivity), Real.log_one,
        Real.log_mul (ne_of_gt hKpos) (ne_of_gt h0)] at h1
      have h2 := mul_le_mul_of_nonneg_left h1 (le_of_lt h0)
      have h3 : p k * (1 / ((K : ℝ) * p k) - 1) = 1 / K - p k := by
        field_simp
        ring
      rw [h3] at h2
      nlinarith [h2]
  calc ∑ k ∈ Finset.range K, -(p k * Real.log (p k))
      ≤ ∑ k ∈ Finset.range K, (1 / K - p k + p k * Real.log K) :=
        Finset.sum_le_sum hterm
    _ = (K : ℝ) * (1 / K) - 1 + Real.log K := by
        rw [Finset.sum_add_distrib, Finset.sum_sub_distrib, Finset.sum_const,
          Finset.card_range, ← Finset.sum_mul, hp.2, nsmul_eq_mul]
        ring
    _ = Real.log K := by
        rw [mul_one_div, div_self (ne_of_gt hKpos)]
        ring

/-- Claim C5, amended.  With the stability constant eps > 0 inside the
logarithm (line 58), the normalized entropy score of a valid
distribution over K at least 2 classes lies in the half-open interval
from -log(1+eps)/log K to 1: the lower end, a strictly negative value,
is attained exactly by the one-hot distributions, the score is always
strictly below 1, and the uniform distribution scores
1 - log(1+K*eps)/log K, slightly below 1.  The spec's [0,1] range with
its 0/1 characterizations holds only for the idealized eps = 0
score. -/
theorem c5_entropy_range (K : ℕ) (hK : 2 ≤ K) (eps : ℝ) (heps : 0 < eps) (p : ℕ → ℝ)
    (hp : ValidDist K p) :
    -Real.log (1 + eps) / Real.log K ≤ entScore K eps p ∧
    entScore K eps p < 1 ∧
    (OneHot K p → entScore K eps p = -Real.log (1 + eps) / Real.log K) ∧
    ((∀ k, k < K → p k = 1 / K) → entScore K eps p = 1 - Real.log (1 + K * eps) / Real.log K) := by
  have hK1 : (1 : ℝ) < K := by exact_mod_cast hK
  have hlogK : 0 < Real.log K := Real.log_pos hK1
  have hKne : (K : ℝ) ≠ 0 := by positivity
  have hple1 : ∀ k, k < K → p k ≤ 1 := by
    intro k hk
    rw [← hp.2]
    exact Finset.single_le_sum (fun j hj => hp.1 j (Finset.mem_range.mp hj))
      (Finset.mem_range.mpr hk)
  refine ⟨?_, ?_, ?_, ?_⟩
  · -- lower bound
    rw [entScore, div_le_div_iff_of_pos_right hlogK]
    have hsum : ∑ k ∈ Finset.range K, (p k * -Real.log (1 + eps)) = -Real.log (1 + eps) := by
      rw [← Finset.sum_mul, hp.2, one_mul]
    rw [← hsum]
    apply Finset.sum_le_sum
    intro k hk
    have hnn := hp.1 k (Finset.mem_range.mp hk)
    have hlog : Real.log (p k + eps) ≤ Real.log (1 + eps) := by
      apply Real.log_le_log (by linarith)
      linarith [hple1 k (Finset.mem_range.mp hk)]
    nlinarith [hlog, hnn]
  · -- strict upper bound
    have hex : ∃ k ∈ Finset.range K, 0 < p k := by
      by_contra hcon
      push_neg at hcon
      have hz : ∑ k ∈ Finset.range K, p k = 0 :=
        Finset.sum_eq_zero (fun k hk =>
          le_antisymm (hcon k hk) (hp.1 k (Finset.mem_range.mp hk)))
      rw [hp.2] at hz
      norm_num at hz
    have hlt : ∑ k ∈ Finset.range K, -(p k * Real.log (p k + eps)) <
        ∑ k ∈ Finset.range K, -(p k * Real.log (p k)) := by
      apply Finset.sum_lt_sum
      · intro k hk
        exact entTerm_le (p k) eps (hp.1 k (Finset.mem_range.mp hk)) heps
      · obtain ⟨k, hk, hkpos⟩ := hex
        refine ⟨k, hk, ?_⟩
        apply neg_lt_neg
        apply mul_lt_mul_of_pos_left _ hkpos
        exact Real.log_lt_log hkpos (by linarith)
    rw [entScore, div_lt_one hlogK]
    calc ∑ k ∈ Finset.range K, -(p k * Real.log (p k + eps))
        < ∑ k ∈ Finset.range K, -(p k * Real.log (p k)) := hlt
      _ ≤ Real.log K := sum_negMulLog_le_logK K (by omega) p hp
  · -- one-hot value
    rintro ⟨k0, hk0K, hk01, hrest⟩
    rw [entScore]
    congr 1
    rw [Finset.sum_eq_single k0]
    · rw [hk01, one_mul]
    · intro k hk hne
      rw [hrest k (Finset.mem_range.mp hk) hne]
      simp
    · intro habs
      exact absurd (Finset.mem_range.mpr hk0K) habs
  · -- uniform value
    intro hunif
    have hval : ∀ k ∈ Finset.range K, -(p k * Real.log (p k + eps)) =
        -(1 / K * Real.log ((1 + K * eps) / K)) := by
      intro k hk
      rw [hunif k (Finset.mem_range.mp hk)]
      congr 2
      field_simp
      ring_nf
    rw [entScore, Finset.sum_congr rfl hval, Finset.sum_const, Finset.card_range,
      nsmul_eq_mul]
    rw [Real.log_div (by positivity) hKne]
    field_simp

/-- Claim C5, counterexample.  The one-hot distribution over two
classes is valid, yet with the positive stability constant its entropy
score is strictly negative, outside [0,1] and different from the 0 the
spec promises for one-hot inputs. -/
theorem c5_counterexample :
    ValidDist 2 oneHot2 ∧ OneHot 2 oneHot2 ∧ entScore 2 (1 / 100000) oneHot2 < 0 := by
  refine ⟨⟨?_, ?_⟩, ⟨0, by norm_num, by norm_num [oneHot2], ?_⟩, ?_⟩
  · intro k hk
    unfold oneHot2
    by_cases h : k = 0 <;> simp [h]
  · simp [Finset.sum_range_succ, oneHot2]
  · intro k hk hne
    simp [oneHot2, hne]
  · have hv : entScore 2 (1 / 100000) oneHot2 =
        -Real.log (1 + 1 / 100000) / Real.log 2 := by
      rw [entScore]
      norm_num [Finset.sum_range_succ, oneHot2]
    rw [hv]
    apply div_neg_of_neg_of_pos
    · rw [neg_lt_zero]
      apply Real.log_pos
      norm_num
    · exact_mod_cast Real.log_pos (by norm_num)

/-- Claim C8, amended.  The engine never validates its input
distributions; instead softmax is applied internally (line 51) to the
raw classifier outputs, and its output is always a valid
ClassDistribution: non-negative entries summing to one. -/
theorem c8_softmax_validity (K : ℕ) (hK : 0 < K) (z : ℕ → ℝ) :
    (∀ k, 0 ≤ softmaxRow K z k) ∧ ∑ k ∈ Finset.range K, softmaxRow K z k = 1 := by
  have hS : 0 < ∑ j ∈ Finset.range K, Real.exp (z j) :=
    Finset.sum_pos (fun j _ => Real.exp_pos _) ⟨0, Finset.mem_range.mpr hK⟩
  constructor
  · intro k
    exact div_nonneg (Real.exp_pos _).le hS.le
  · unfold softmaxRow
    rw [← Finset.sum_div]
    exact div_self (ne_of_gt hS)

/-- If every sample is tagged cluster 1, the iidx comparison compares
the global mean with itself and stays 0. -/
theorem iidx_false_all_one {A : Type} [LinearOrderedField A] (I : OLInput A)
    (h : ∀ i, I.assign i = true) : I.iidx = false := by
  unfold OLInput.iidx
  apply decide_eq_false
  rintro ⟨-, hgt⟩
  have hall : I.idxF = Finset.range I.n := by
    unfold OLInput.idxF
    apply Finset.filter_true_of_mem
    intro i _
    exact h i
  rw [hall] at hgt
  exact lt_irrefl _ hgt

/-- If every sample is tagged cluster 1, the whole pass is KNOWN. -/
theorem knownF_all_one {A : Type} [LinearOrderedField A] (I : OLInput A)
    (h : ∀ i, I.assign i = true) : I.knownF = Finset.range I.n := by
  unfold OLInput.knownF
  apply Finset.filter_true_of_mem
  intro i _
  unfold OLInput.knownB
  rw [h i, iidx_false_all_one I h]
  rfl

/-- If every sample is tagged cluster 0, cluster 1 is empty. -/
theorem idxF_empty_all_zero {A : Type} [LinearOrderedField A] (I : OLInput A)
    (h : ∀ i, I.assign i = false) : I.idxF = ∅ := by
  unfold OLInput.idxF
  apply Finset.filter_false_of_mem
  intro i _
  rw [h i]
  exact Bool.false_ne_true

/-- If every sample is tagged cluster 0, the KNOWN subset is empty. -/
theorem knownF_all_zero {A : Type} [LinearOrderedField A] (I : OLInput A)
    (h : ∀ i, I.assign i = false) : I.knownF = ∅ := by
  have hii : I.iidx = false := by
    unfold OLInput.iidx
    apply decide_eq_false
    rintro ⟨hne, -⟩
    rw [idxF_empty_all_zero I h] at hne
    exact Finset.not_nonempty_empty hne
  unfold OLInput.knownF
  apply Finset.filter_false_of_mem
  intro i _
  unfold OLInput.knownB
  rw [h i, hii]
  simp

/-- The pass returns a value whenever the label set is non-empty. -/
theorem result_isSome_of {A : Type} [LinearOrderedField A] (I : OLInput A)
    (h : I.labelsetL ≠ []) : I.result.isSome = true := by
  have h0 := assignWith_isSome I (fun k j => I.initcSoft k j) h
  obtain ⟨p, hp⟩ := Option.isSome_iff_exists.mp h0
  have hp2 : I.pred0 = some p := hp
  have h1 := assignWith_isSome I (fun k j => I.initcOf (I.hardW p) k j) h
  obtain ⟨q, hq⟩ := Option.isSome_iff_exists.mp h1
  have hq2 : I.refine p = some q := hq
  unfold OLInput.result
  rw [hp2]
  simp only [Option.some_bind]
  rw [hq2]
  rfl

/-- Over two classes, torch.max returns class 1 exactly when its
probability is strictly larger. -/
theorem predict_two {A : Type} [LinearOrderedField A] (I : OLInput A) (h2 : I.K = 2)
    (i : ℕ) : I.predict i = if I.out i 0 < I.out i 1 then 1 else 0 := by
  unfold OLInput.predict
  rw [h2]
  rfl

/-- The defaulted argmin over the two-element index list. -/
theorem getD_argmin_pair {A : Type} [LinearOrder A] (f : ℕ → A) :
    (argminList f [0, 1]).getD 0 = if f 1 < f 0 then 1 else 0 := rfl

/-- Evaluation of C1W: the whole one-sample pass is KNOWN. -/
theorem c1w_known : C1W.knownF = Finset.range 1 :=
  knownF_all_one C1W (fun _ => rfl)

/-- Evaluation of C1W: the single class survives the support filter. -/
theorem c1w_labelset : C1W.labelsetL = [0] := by
  have hc : C1W.clsCount 0 = 1 := by
    unfold OLInput.clsCount
    rw [c1w_known]
    rw [Finset.sum_range_succ, Finset.sum_range_zero]
    norm_num [OLInput.hardW, show C1W.predict 0 = 0 from rfl]
  unfold OLInput.labelsetL
  rw [show List.range C1W.K = [0] from rfl]
  rw [List.filter_cons, List.filter_nil]
  rw [if_pos (decide_eq_true (by rw [hc]; norm_num [C1W]))]

/-- Evaluation of C1W: every assignment step sends everything to the
only surviving class. -/
theorem c1w_assign (c : ℕ → ℕ → ℚ) : C1W.assignWith c = some (fun _ => 0) := by
  unfold OLInput.assignWith
  rw [if_neg (by rw [c1w_labelset]; simp)]
  congr 1
  funext i
  rw [c1w_labelset]
  rfl

/-- Evaluation of C1W: the round-0 assignment. -/
theorem c1w_pred0 : C1W.pred0 = some (fun _ => 0) := by
  rw [pred0_eq]
  exact c1w_assign _

/-- Evaluation of C1W: both rounds compose to the constant-0 labels. -/
theorem c1w_bind : C1W.pred0.bind (fun p => C1W.refine p) = some (fun _ => 0) := by
  rw [c1w_pred0]
  simp only [Option.some_bind]
  rw [refine_eq]
  exact c1w_assign _

/-- Evaluation of C1W: the returned pair. -/
theorem c1w_result : C1W.result = some (C1W.guessOf (fun _ => 0), C1W.threshold) := by
  unfold OLInput.result
  rw [c1w_bind]
  rfl

/-- Claim C1, witness: on the one-sample pass the returned vector
assigns the single KNOWN sample its refined label inside the label set
and stays within the sentinel bound. -/
theorem c1_witness :
    (C1W.knownB 0 = false → C1W.guessOf (fun _ => 0) 0 = C1W.K) ∧
    (C1W.knownB 0 = true → C1W.guessOf (fun _ => 0) 0 = 0 ∧ (0 : ℕ) ∈ C1W.labelsetL) ∧
    C1W.guessOf (fun _ => 0) 0 ≤ C1W.K :=
  c1_engine_output C1W (fun _ => 0) (C1W.guessOf (fun _ => 0)) C1W.threshold
    c1w_bind c1w_result 0 Nat.zero_lt_one

/-- Claim C9, witness: the one-sample pass equals its one-round
iterated form and completes. -/
theorem c9_witness :
    C1W.result = (C1W.pred0.bind (fun p => C1W.refineIter 1 p)).map
      (fun p => (C1W.guessOf p, C1W.threshold)) ∧ C1W.result.isSome = true :=
  ⟨(c9_fixed_rounds C1W).1,
   (c9_fixed_rounds C1W).2 (by rw [c1w_labelset]; simp)⟩

/-- Claim C3, witness: on the one-sample pass the round-0 label of the
KNOWN sample lies in the support-filtered label set. -/
theorem c3_witness : (0 : ℕ) ∈ C1W.labelsetL :=
  (c3_labelset_fixed C1W).2.1 (fun _ => 0) c1w_pred0 0
    (by rw [c1w_known]; decide)

/-- Claim C4, witness: the round-0 prototype formula instantiated on
the one-sample pass. -/
theorem c4_witness :
    C1W.initcSoft 0 0 = (∑ i ∈ C1W.knownF, C1W.out i 0 * C1W.fea i 0) /
      (1 / 100000000 + ∑ i ∈ C1W.knownF, C1W.out i 0) :=
  (c4_prototype_formulas C1W (fun _ _ => zero_le_one)).1 0 0

/-- Evaluation of C6I: the classifier argmax is class 0 on both
samples. -/
theorem c6i_predict (i : ℕ) : C6I.predict i = 0 := by
  rw [predict_two C6I rfl]
  rw [if_neg (by norm_num [C6I])]

/-- Evaluation of C6I: class counts 2 and 0 both fail the threshold
10, so the label set is empty. -/
theorem c6i_labelset : C6I.labelsetL = [] := by
  have h0 : C6I.clsCount 0 = 2 := by
    unfold OLInput.clsCount
    rw [knownF_all_one C6I (fun _ => rfl)]
    rw [show C6I.n = 2 from rfl]
    rw [Finset.sum_range_succ, Finset.sum_range_succ, Finset.sum_range_zero]
    norm_num [OLInput.hardW, c6i_predict]
  have h1 : C6I.clsCount 1 = 0 := by
    unfold OLInput.clsCount
    rw [knownF_all_one C6I (fun _ => rfl)]
    rw [show C6I.n = 2 from rfl]
    rw [Finset.sum_range_succ, Finset.sum_range_succ, Finset.sum_range_zero]
    norm_num [OLInput.hardW, c6i_predict]
  unfold OLInput.labelsetL
  rw [show List.range C6I.K = [0, 1] from rfl]
  rw [List.filter_cons, List.filter_cons, List.filter_nil]
  rw [if_neg (by simp only [decide_eq_true_eq]; rw [h0]; norm_num [C6I]),
    if_neg (by simp only [decide_eq_true_eq]; rw [h1]; norm_num [C6I])]

/-- Claim C6, counterexample: with every class under-supported and a
non-empty KNOWN subset, the pass produces no output at all, the
modelled ValueError of line 87, instead of the recoverable fallback
the claim promises. -/
theorem c6_counterexample :
    C6I.labelsetL = [] ∧ C6I.knownF = {0, 1} ∧ C6I.result = none := by
  have hk : C6I.knownF = {0, 1} := by
    rw [knownF_all_one C6I (fun _ => rfl)]
    decide
  refine ⟨c6i_labelset, hk, ?_⟩
  have hp : C6I.pred0 = none := by
    rw [pred0_eq]
    unfold OLInput.assignWith
    rw [if_pos c6i_labelset]
  unfold OLInput.result
  rw [hp]
  rfl

/-- Claim C6, witness: the amended statement at its two concrete
inputs, the under-supported pass with KNOWN samples and the
all-UNKNOWN pass, both of which abort. -/
theorem c6_witness :
    C6I.result = none ∧ C6E.labelsetL = [] ∧ C6E.result = none := by
  refine ⟨(c6_degraded_pass C6I).1 c6i_labelset, ?_⟩
  exact (c6_degraded_pass C6E).2 (knownF_all_zero C6E (fun _ => rfl))
    (by norm_num [C6E])

/-- Evaluation of C8I: the classifier argmax on the malformed row is
class 1. -/
theorem c8i_predict : C8I.predict 0 = 1 := by
  rw [predict_two C8I rfl]
  rw [if_pos (by norm_num [C8I])]

/-- Evaluation of C8I: class 1 survives the support filter. -/
theorem c8i_labelset : C8I.labelsetL = [1] := by
  have h0 : C8I.clsCount 0 = 0 := by
    unfold OLInput.clsCount
    rw [knownF_all_one C8I (fun _ => rfl)]
    rw [show C8I.n = 1 from rfl]
    rw [Finset.sum_range_succ, Finset.sum_range_zero]
    norm_num [OLInput.hardW, c8i_predict]
  have h1 : C8I.clsCount 1 = 1 := by
    unfold OLInput.clsCount
    rw [knownF_all_one C8I (fun _ => rfl)]
    rw [show C8I.n = 1 from rfl]
    rw [Finset.sum_range_succ, Finset.sum_range_zero]
    norm_num [OLInput.hardW, c8i_predict]
  unfold OLInput.labelsetL
  rw [show List.range C8I.K = [0, 1] from rfl]
  rw [List.filter_cons, List.filter_cons, List.filter_nil]
  rw [if_neg (by simp only [decide_eq_true_eq]; rw [h0]; norm_num [C8I]),
    if_pos (decide_eq_true (by rw [h1]; norm_num [C8I]))]

/-- Claim C8, counterexample: a ClassDistribution row with a negative
entry and total mass 2 is processed to completion, with no
input-validation rejection anywhere before or during scoring. -/
theorem c8_counterexample :
    C8I.out 0 0 < 0 ∧ (∑ k ∈ Finset.range 2, C8I.out 0 k) ≠ 1 ∧
    C8I.result.isSome = true := by
  refine ⟨by norm_num [C8I], ?_, ?_⟩
  · rw [Finset.sum_range_succ, Finset.sum_range_succ, Finset.sum_range_zero]
    norm_num [C8I]
  · exact result_isSome_of C8I (by rw [c8i_labelset]; simp)

/-- Claim C8, witness: softmax validity instantiated over one class. -/
theorem c8_witness :
    (0 ≤ softmaxRow 1 (fun _ => 0) 0) ∧
    (∑ k ∈ Finset.range 1, softmaxRow 1 (fun _ => 0) k = 1) :=
  ⟨(c8_softmax_validity 1 Nat.zero_lt_one (fun _ => 0)).1 0,
   (c8_softmax_validity 1 Nat.zero_lt_one (fun _ => 0)).2⟩

/-- One-coordinate squared distance. -/
theorem sqDist_one {A : Type} [LinearOrderedField A] (x y : ℕ → A) :
    sqDist 1 x y = (x 0 - y 0) ^ 2 := by
  unfold sqDist
  rw [Finset.sum_range_one]

/-- Evaluation of C3I: the whole pass is KNOWN. -/
theorem c3i_known : C3I.knownF = Finset.range 4 :=
  knownF_all_one C3I (fun _ => rfl)

/-- Evaluation of C3I: the classifier argmax predictions are
0, 0, 1, 1. -/
theorem c3i_predict0 : C3I.predict 0 = 0 := by
  rw [predict_two C3I rfl]
  rw [if_neg (by norm_num [C3I])]

/-- Evaluation of C3I: sample 1 is argmaxed to class 0. -/
theorem c3i_predict1 : C3I.predict 1 = 0 := by
  rw [predict_two C3I rfl]
  rw [if_neg (by norm_num [C3I])]

/-- Evaluation of C3I: sample 2 is argmaxed to class 1. -/
theorem c3i_predict2 : C3I.predict 2 = 1 := by
  rw [predict_two C3I rfl]
  rw [if_pos (by norm_num [C3I])]

/-- Evaluation of C3I: sample 3 is argmaxed to class 1. -/
theorem c3i_predict3 : C3I.predict 3 = 1 := by
  rw [predict_two C3I rfl]
  rw [if_pos (by norm_num [C3I])]

/-- Evaluation of C3I: both argmax counts are 2, above the threshold
1, so both classes survive the support filter. -/
theorem c3i_labelset : C3I.labelsetL = [0, 1] := by
  have h0 : C3I.clsCount 0 = 2 := by
    unfold OLInput.clsCount
    rw [c3i_known]
    rw [Finset.sum_range_succ, Finset.sum_range_succ, Finset.sum_range_succ,
      Finset.sum_range_succ, Finset.sum_range_zero]
    norm_num [OLInput.hardW, c3i_predict0, c3i_predict1, c3i_predict2, c3i_predict3]
  have h1 : C3I.clsCount 1 = 2 := by
    unfold OLInput.clsCount
    rw [c3i_known]
    rw [Finset.sum_range_succ, Finset.sum_range_succ, Finset.sum_range_succ,
      Finset.sum_range_succ, Finset.sum_range_zero]
    norm_num [OLInput.hardW, c3i_predict0, c3i_predict1, c3i_predict2, c3i_predict3]
  unfold OLInput.labelsetL
  rw [show List.range C3I.K = [0, 1] from rfl]
  rw [List.filter_cons, List.filter_cons, List.filter_nil]
  rw [if_pos (decide_eq_true (by rw [h0]; norm_num [C3I])),
    if_pos (decide_eq_true (by rw [h1]; norm_num [C3I]))]

/-- Evaluation of C3I: the round-0 soft prototype of class 0. -/
theorem c3i_soft0 : C3I.initcSoft 0 0 = 200000000 / 280000001 := by
  unfold OLInput.initcSoft OLInput.initcOf
  rw [c3i_known]
  simp only [Finset.sum_range_succ, Finset.sum_range_zero]
  norm_num [C3I]

/-- Evaluation of C3I: the round-0 soft prototype of class 1. -/
theorem c3i_soft1 : C3I.initcSoft 1 0 = 0 := by
  unfold OLInput.initcSoft OLInput.initcOf
  rw [c3i_known]
  simp only [Finset.sum_range_succ, Finset.sum_range_zero]
  norm_num [C3I]

/-- Evaluation of C3I: the round-0 assignment sends samples 0, 1, 2 to
class 0 and sample 3 to class 1, so the hard count of class 1 drops
to 1. -/
theorem c3i_pred0 : C3I.pred0 = some p03 := by
  rw [pred0_eq]
  unfold OLInput.assignWith
  rw [if_neg (by rw [c3i_labelset]; simp)]
  congr 1
  funext i
  rw [c3i_labelset]
  rw [show C3I.dist = sqDist 1 from rfl]
  rw [getD_argmin_pair]
  show (if sqDist 1 (C3I.fea i) (fun j => C3I.initcSoft 1 j) <
      sqDist 1 (C3I.fea i) (fun j => C3I.initcSoft 0 j) then 1 else 0) = p03 i
  rw [sqDist_one, sqDist_one]
  show (if (C3I.fea i 0 - C3I.initcSoft 1 0) ^ 2 <
      (C3I.fea i 0 - C3I.initcSoft 0 0) ^ 2 then 1 else 0) = p03 i
  rw [c3i_soft0, c3i_soft1]
  rcases i with _ | _ | _ | i
  · norm_num [C3I, p03]
  · norm_num [C3I, p03]
  · norm_num [C3I, p03]
  · have hf : C3I.fea (i + 3) 0 = -4 := by
      show (if i + 3 = 0 then (1 : ℚ) else if i + 3 = 1 then 1
        else if i + 3 = 2 then 4 else -4) = -4
      rw [if_neg (by omega), if_neg (by omega), if_neg (by omega)]
    have hp : p03 (i + 3) = 1 := by
      show (if i + 3 ≤ 2 then 0 else 1) = 1
      rw [if_neg (by omega)]
    rw [hf, hp]
    norm_num

/-- Evaluation of C3I: the round-1 hard prototype of class 0 is the
regularized mean of the three feature values now labelled 0. -/
theorem c3i_hard0 : C3I.initcOf (C3I.hardW p03) 0 0 = 600000000 / 300000001 := by
  unfold OLInput.initcOf
  rw [c3i_known]
  simp only [Finset.sum_range_succ, Finset.sum_range_zero]
  norm_num [C3I, OLInput.hardW, p03]

/-- Evaluation of C3I: the round-1 hard prototype of class 1 is the
regularized mean of the single feature value labelled 1. -/
theorem c3i_hard1 : C3I.initcOf (C3I.hardW p03) 1 0 = -400000000 / 100000001 := by
  unfold OLInput.initcOf
  rw [c3i_known]
  simp only [Finset.sum_range_succ, Finset.sum_range_zero]
  norm_num [C3I, OLInput.hardW, p03]

/-- Evaluation of C3I: the refinement round reproduces the same hard
labels, in particular it still assigns sample 3 the under-supported
class 1. -/
theorem c3i_refine : C3I.refine p03 = some p03 := by
  rw [refine_eq]
  unfold OLInput.assignWith
  rw [if_neg (by rw [c3i_labelset]; simp)]
  congr 1
  funext i
  rw [c3i_labelset]
  rw [show C3I.dist = sqDist 1 from rfl]
  rw [getD_argmin_pair]
  show (if sqDist 1 (C3I.fea i) (fun j => C3I.initcOf (C3I.hardW p03) 1 j) <
      sqDist 1 (C3I.fea i) (fun j => C3I.initcOf (C3I.hardW p03) 0 j) then 1 else 0) = p03 i
  rw [sqDist_one, sqDist_one]
  show (if (C3I.fea i 0 - C3I.initcOf (C3I.hardW p03) 1 0) ^ 2 <
      (C3I.fea i 0 - C3I.initcOf (C3I.hardW p03) 0 0) ^ 2 then 1 else 0) = p03 i
  rw [c3i_hard0, c3i_hard1]
  rcases i with _ | _ | _ | i
  · norm_num [C3I, p03]
  · norm_num [C3I, p03]
  · norm_num [C3I, p03]
  · have hf : C3I.fea (i + 3) 0 = -4 := by
      show (if i + 3 = 0 then (1 : ℚ) else if i + 3 = 1 then 1
        else if i + 3 = 2 then 4 else -4) = -4
      rw [if_neg (by omega), if_neg (by omega), if_neg (by omega)]
    have hp : p03 (i + 3) = 1 := by
      show (if i + 3 ≤ 2 then 0 else 1) = 1
      rw [if_neg (by omega)]
    rw [hf, hp]
    norm_num

/-- Claim C3, counterexample.  On C3I the refinement round's input
prediction gives class 1 a hard count of exactly 1, which does not
exceed the threshold 1, so under the claim class 1 would be outside
that round's label set; yet the round still assigns sample 3 to
class 1, because the code never recomputes the label set after the
classifier-argmax counts. -/
theorem c3_counterexample :
    C3I.pred0 = some p03 ∧ C3I.refine p03 = some p03 ∧ p03 3 = 1 ∧
    (∑ i ∈ C3I.knownF, C3I.hardW p03 i 1) = 1 ∧ ¬ (C3I.thr < (1 : ℚ)) := by
  refine ⟨c3i_pred0, c3i_refine, rfl, ?_, by norm_num [C3I]⟩
  rw [c3i_known]
  simp only [Finset.sum_range_succ, Finset.sum_range_zero]
  norm_num [OLInput.hardW, p03]

/-- Claim C2, witness: the gap-split assignment with the exact cluster
means satisfies the KMeans contract, and the splitter conclusions hold
on it. -/
theorem c2_witness :
    ((splitIn6 a6 (23 / 300) (17 / 20)).iidx = true ↔ (23 / 300 : ℚ) < 17 / 20) ∧
    ((Finset.range 6).filter
      (fun i => (splitIn6 a6 (23 / 300) (17 / 20)).knownB i = false) = {3, 4, 5} ∧
    1 / 10 < (splitIn6 a6 (23 / 300) (17 / 20)).threshold ∧
    (splitIn6 a6 (23 / 300) (17 / 20)).threshold < 4 / 5) := by
  have hinv : (splitIn6 a6 (23 / 300) (17 / 20)).kmeansInv := by
    refine ⟨⟨0, (mem_cl0F _ 0).mpr ⟨by decide, rfl⟩⟩,
      ⟨3, (mem_idxF _ 3).mpr ⟨by decide, rfl⟩⟩, ?_, ?_, ?_⟩
    · show (23 / 300 : ℚ) = meanOver ((Finset.range 6).filter (fun i => a6 i = false)) ent6
      rw [show (Finset.range 6).filter (fun i => a6 i = false) = {0, 1, 2} from by decide]
      unfold meanOver
      rw [Finset.sum_insert (by decide), Finset.sum_insert (by decide),
        Finset.sum_singleton]
      norm_num [ent6]
    · show (17 / 20 : ℚ) = meanOver ((Finset.range 6).filter (fun i => a6 i = true)) ent6
      rw [show (Finset.range 6).filter (fun i => a6 i = true) = {3, 4, 5} from by decide]
      unfold meanOver
      rw [Finset.sum_insert (by decide), Finset.sum_insert (by decide),
        Finset.sum_singleton]
      norm_num [ent6]
    · intro i hi
      have hi6 : i < 6 := Finset.mem_range.mp hi
      show a6 i = decide ((ent6 i - 17 / 20) ^ 2 < (ent6 i - 23 / 300) ^ 2)
      interval_cases i
      · exact (decide_eq_false (by norm_num [ent6])).symm
      · exact (decide_eq_false (by norm_num [ent6])).symm
      · exact (decide_eq_false (by norm_num [ent6])).symm
      · exact (decide_eq_true (by norm_num [ent6])).symm
      · exact (decide_eq_true (by norm_num [ent6])).symm
      · exact (decide_eq_true (by norm_num [ent6])).symm
  exact ⟨(c2_open_set_splitter.1 (splitIn6 a6 (23 / 300) (17 / 20)) hinv).1,
    c2_open_set_splitter.2 a6 (23 / 300) (17 / 20) hinv⟩

/-- Claim C10, witness: on the gap-split input with both clusters
non-empty the selection compares the two cluster means, and on the
all-cluster-0 input the KNOWN subset vanishes and the sentinel is
emitted. -/
theorem c10_witness :
    ((splitIn6 a6 (23 / 300) (17 / 20)).iidx = true ↔
      meanOver (splitIn6 a6 (23 / 300) (17 / 20)).idxF ent6 >
        meanOver (splitIn6 a6 (23 / 300) (17 / 20)).cl0F ent6) ∧
    C6E.knownF = ∅ ∧ C6E.guessOf (fun _ => 0) 0 = C6E.K := by
  refine ⟨?_, ?_, ?_⟩
  · exact (c10_unknown_selection (splitIn6 a6 (23 / 300) (17 / 20))).2.1
      ⟨0, (mem_cl0F _ 0).mpr ⟨by decide, rfl⟩⟩
      ⟨3, (mem_idxF _ 3).mpr ⟨by decide, rfl⟩⟩
  · exact ((c10_unknown_selection C6E).2.2 (idxF_empty_all_zero C6E (fun _ => rfl))).1
  · exact ((c10_unknown_selection C6E).2.2
      (idxF_empty_all_zero C6E (fun _ => rfl))).2 (fun _ => 0) 0

/-- Claim C5, witness: the amended bounds instantiated at the uniform
distribution over two classes with stability constant 1. -/
theorem c5_witness :
    -Real.log (1 + 1) / Real.log ((2 : ℕ) : ℝ) ≤ entScore 2 1 unif2 ∧
    entScore 2 1 unif2 < 1 := by
  have hv : ValidDist 2 unif2 := by
    constructor
    · intro k hk
      unfold unif2
      rw [if_pos hk]
      norm_num
    · rw [Finset.sum_range_succ, Finset.sum_range_succ, Finset.sum_range_zero]
      norm_num [unif2]
  have h := c5_entropy_range 2 le_rfl 1 one_pos unif2 hv
  exact ⟨h.1, h.2.1⟩
